import Mathlib

/-!
Verification of the crab-lib geospatial analysis core (`analysis.py`, `utils.py`).

The Python code is shallowly embedded: each point record (a dict with numeric
fields `x` = latitude and `y` = longitude) becomes a `Point` structure over `ℝ`,
Python's `math` functions become their real-analysis counterparts
(`math.atan2 y x` is the argument of the complex number `x + y·i`), and the
two stateful loops of `find_clusters` become structural recursions that pass
the `visited` index set explicitly.  Python runtime failures (`ZeroDivisionError`
from `x / 0`, `ValueError` from `min`/`max` of an empty sequence) are modelled
with an `Except` result type.
-/

/-- A GPS point record: the code's dict with keys `x` (latitude) and `y`
(longitude), read as floats at every use site. -/
structure Point where
  x : ℝ
  y : ℝ

instance : Inhabited Point := ⟨⟨0, 0⟩⟩

/-- The coordinate pair `(float(p['x']), float(p['y']))` built from a point
record, as in lines 58-59 and 91-92 of `analysis.py`. -/
def toCoord (p : Point) : ℝ × ℝ := (p.x, p.y)

/-- Python's `math.atan2(y, x)`: the argument of the complex number `x + y·i`,
valued in `(-π, π]`. -/
noncomputable def atan2 (y x : ℝ) : ℝ := Complex.arg ⟨x, y⟩

/-- Python's `math.radians`: degrees to radians. -/
noncomputable def radians (d : ℝ) : ℝ := d * (Real.pi / 180)

/-- Python's `math.degrees`: radians to degrees. -/
noncomputable def degrees (r : ℝ) : ℝ := r * (180 / Real.pi)

/-- The intermediate haversine term `a` of `haversine_distance`
(`analysis.py` line 37): `sin²(dlat/2) + cos(lat1)·cos(lat2)·sin²(dlon/2)`
with all four coordinates first converted to radians. -/
noncomputable def hav_a (coord1 coord2 : ℝ × ℝ) : ℝ :=
  let lat1 := radians coord1.1
  let lat2 := radians coord2.1
  let dlat := lat2 - lat1
  let dlon := radians coord2.2 - radians coord1.2
  Real.sin (dlat / 2) ^ 2 + Real.cos lat1 * Real.cos lat2 * Real.sin (dlon / 2) ^ 2

/-- `haversine_distance` of `analysis.py` (lines 17-40): great-circle distance
in kilometres, `R·c` with `R = 6371.0` and `c = 2·atan2(√a, √(1-a))`. -/
noncomputable def haversine_distance (coord1 coord2 : ℝ × ℝ) : ℝ :=
  let R : ℝ := 6371.0
  let a := hav_a coord1 coord2
  let c := 2 * atan2 (Real.sqrt a) (Real.sqrt (1 - a))
  R * c

/-- One entry of the list returned by `calculate_distances`: the two coordinate
pairs and their haversine distance (`analysis.py` line 61). -/
structure DistanceRecord where
  point1 : ℝ × ℝ
  point2 : ℝ × ℝ
  distance : ℝ

/-- The record `calculate_distances` emits for the index pair `(i, j)`. -/
noncomputable def distance_record (data : List Point) (i j : ℕ) : DistanceRecord :=
  let point1 := toCoord (data.getD i default)
  let point2 := toCoord (data.getD j default)
  { point1 := point1, point2 := point2, distance := haversine_distance point1 point2 }

/-- `calculate_distances` of `analysis.py` (lines 43-62): the nested loops
`for i in range(n): for j in range(i+1, n)` emitting one record per pair. -/
noncomputable def calculate_distances (data : List Point) : List DistanceRecord :=
  (List.range data.length).flatMap fun i =>
    (List.range' (i + 1) (data.length - (i + 1))).map fun j =>
      distance_record data i j

/-- The index pairs `(i, j)`, `i < j < n`, in the emission order of the nested
loops of `calculate_distances`. -/
def lexPairs (n : ℕ) : List (ℕ × ℕ) :=
  (List.range n).flatMap fun i =>
    (List.range' (i + 1) (n - (i + 1))).map fun j => (i, j)

/-- Strict lexicographic order on index pairs. -/
def lexLt (p q : ℕ × ℕ) : Prop := p.1 < q.1 ∨ (p.1 = q.1 ∧ p.2 < q.2)

/-- The inner loop of `find_clusters` (`analysis.py` lines 87-97): scan the
enumerated dataset, skip visited indices, and for every other index whose
distance to the seed `point` is at most `radius`, append the point to the
cluster and mark the index visited.  Returns the collected cluster tail and
the final visited set. -/
noncomputable def cluster_scan (radius : ℝ) (point : Point) :
    List (ℕ × Point) → Finset ℕ → List Point × Finset ℕ
  | [], visited => ([], visited)
  | (j, other_point) :: rest, visited =>
    if j ∈ visited then cluster_scan radius point rest visited
    else if haversine_distance (toCoord point) (toCoord other_point) ≤ radius then
      let res := cluster_scan radius point rest (insert j visited)
      (other_point :: res.1, res.2)
    else cluster_scan radius point rest visited

/-- The outer loop of `find_clusters` (`analysis.py` lines 80-99): iterate the
enumerated dataset; each unvisited index `i` is marked visited and opens a
cluster `[point] + cluster` whose tail the inner scan collects. -/
noncomputable def cluster_outer (data : List Point) (radius : ℝ) :
    List (ℕ × Point) → Finset ℕ → List (List Point)
  | [], _ => []
  | (i, point) :: rest, visited =>
    if i ∈ visited then cluster_outer data radius rest visited
    else
      let res := cluster_scan radius point data.enum (insert i visited)
      (point :: res.1) :: cluster_outer data radius rest res.2

/-- `find_clusters` of `analysis.py` (lines 65-101): run the outer loop over
the enumerated dataset with an initially empty visited set. -/
noncomputable def find_clusters (data : List Point) (radius : ℝ) : List (List Point) :=
  cluster_outer data radius data.enum ∅

/-- Runtime error kinds reachable from `summarize_data`.  `zeroDivision` is
Python's `ZeroDivisionError` (raised by `x / 0`), `emptyArg` is the
`ValueError` raised by `min`/`max` on an empty sequence, and `emptyDataset`
is the explicit empty-input error kind named by the design documentation
(never raised by the code itself). -/
inductive PyError where
  | zeroDivision
  | emptyArg
  | emptyDataset
deriving DecidableEq

/-- Python division of a float by an integer count: raises
`ZeroDivisionError` when the divisor is zero. -/
noncomputable def pyDiv (a : ℝ) (b : ℕ) : Except PyError ℝ :=
  if b = 0 then .error .zeroDivision else .ok (a / b)

/-- Python's builtin `min` on a list: `ValueError` on an empty sequence,
otherwise the least element (a left fold of binary `min`). -/
noncomputable def pyMin : List ℝ → Except PyError ℝ
  | [] => .error .emptyArg
  | v :: rest => .ok (rest.foldl min v)

/-- Python's builtin `max` on a list: `ValueError` on an empty sequence,
otherwise the greatest element (a left fold of binary `max`). -/
noncomputable def pyMax : List ℝ → Except PyError ℝ
  | [] => .error .emptyArg
  | v :: rest => .ok (rest.foldl max v)

/-- The bounding-box dict built by `summarize_data` (`analysis.py` lines
122-127). -/
structure BoundingBox where
  min_lat : ℝ
  max_lat : ℝ
  min_lon : ℝ
  max_lon : ℝ

/-- The summary dict returned by `summarize_data` (`analysis.py` lines
129-134). -/
structure Summary where
  total_points : ℕ
  average_latitude : ℝ
  average_longitude : ℝ
  bounding_box : BoundingBox

/-- `summarize_data` of `analysis.py` (lines 104-134), in evaluation order:
the two mean computations divide by `len(data)` first (so an empty dataset
raises `ZeroDivisionError` there), then `min`/`max` build the bounding box. -/
noncomputable def summarize_data (data : List Point) : Except PyError Summary := do
  let total_points := data.length
  let avg_lat ← pyDiv (data.map fun point => point.x).sum total_points
  let avg_lon ← pyDiv (data.map fun point => point.y).sum total_points
  let latitudes := data.map fun point => point.x
  let longitudes := data.map fun point => point.y
  let min_lat ← pyMin latitudes
  let max_lat ← pyMax latitudes
  let min_lon ← pyMin longitudes
  let max_lon ← pyMax longitudes
  return { total_points := total_points
           average_latitude := avg_lat
           average_longitude := avg_lon
           bounding_box :=
             { min_lat := min_lat, max_lat := max_lat
               min_lon := min_lon, max_lon := max_lon } }

/-- Python's float `%` for a positive divisor: `a % b = a - b·⌊a/b⌋`,
always in `[0, b)` for `b > 0`. -/
noncomputable def pymod (a b : ℝ) : ℝ := a - b * ⌊a / b⌋

/-- `calculate_bearing` of `utils.py` (lines 43-65): initial bearing from
`coord1` to `coord2`, `atan2(x, y)` converted to degrees and normalized by
`(deg + 360) % 360`. -/
noncomputable def calculate_bearing (coord1 coord2 : ℝ × ℝ) : ℝ :=
  let lat1 := radians coord1.1
  let lat2 := radians coord2.1
  let dlon := radians coord2.2 - radians coord1.2
  let x := Real.sin dlon * Real.cos lat2
  let y := Real.cos lat1 * Real.sin lat2 - Real.sin lat1 * Real.cos lat2 * Real.cos dlon
  let initial_bearing := degrees (atan2 x y)
  pymod (initial_bearing + 360) 360

/-- Bounds for the haversine term: for all real angles `x`, `y`, `z`,
`sin²((y-x)/2) + cos x · cos y · sin²(z/2)` lies in `[0, 1]`. -/
theorem hav_term_bounds (x y z : ℝ) :
    0 ≤ Real.sin ((y - x) / 2) ^ 2 + Real.cos x * Real.cos y * Real.sin (z / 2) ^ 2 ∧
    Real.sin ((y - x) / 2) ^ 2 + Real.cos x * Real.cos y * Real.sin (z / 2) ^ 2 ≤ 1 := by
  have h1 := Real.sin_sq_eq_half_sub ((y - x) / 2)
  rw [show 2 * ((y - x) / 2) = y - x by ring] at h1
  have h2 := Real.sin_sq_eq_half_sub (z / 2)
  rw [show 2 * (z / 2) = z by ring] at h2
  have hc := Real.cos_sub y x
  have p1 := Real.sin_sq_add_cos_sq x
  have p2 := Real.sin_sq_add_cos_sq y
  have hz1 := Real.neg_one_le_cos z
  have hz2 := Real.cos_le_one z
  constructor
  · nlinarith [sq_nonneg (Real.sin x - Real.sin y),
      mul_nonneg (by linarith : (0:ℝ) ≤ 1 + Real.cos z) (sq_nonneg (Real.cos x - Real.cos y)),
      mul_nonneg (by linarith : (0:ℝ) ≤ 1 - Real.cos z) (sq_nonneg (Real.cos x + Real.cos y))]
  · nlinarith [sq_nonneg (Real.sin x + Real.sin y),
      mul_nonneg (by linarith : (0:ℝ) ≤ 1 + Real.cos z) (sq_nonneg (Real.cos x + Real.cos y)),
      mul_nonneg (by linarith : (0:ℝ) ≤ 1 - Real.cos z) (sq_nonneg (Real.cos x - Real.cos y))]

/-- C4: `haversine_distance` has no error conditions: for every pair of
coordinate inputs the intermediate haversine term `a` satisfies `0 ≤ a` and
`0 ≤ 1 - a`, so both square-root arguments are in the domain of `sqrt`. -/
theorem haversine_sqrt_args_in_domain (coord1 coord2 : ℝ × ℝ) :
    0 ≤ hav_a coord1 coord2 ∧ 0 ≤ 1 - hav_a coord1 coord2 := by
  have h := hav_term_bounds (radians coord1.1) (radians coord2.1)
    (radians coord2.2 - radians coord1.2)
  simp only [hav_a]
  exact ⟨h.1, by linarith [h.2]⟩

/-- C6: `haversine_distance` is symmetric: swapping its two arguments
changes nothing, exactly. -/
theorem haversine_distance_comm (coord1 coord2 : ℝ × ℝ) :
    haversine_distance coord1 coord2 = haversine_distance coord2 coord1 := by
  have h : hav_a coord1 coord2 = hav_a coord2 coord1 := by
    simp only [hav_a]
    rw [show (radians coord1.1 - radians coord2.1) / 2 =
          -((radians coord2.1 - radians coord1.1) / 2) by ring,
        show (radians coord1.2 - radians coord2.2) / 2 =
          -((radians coord2.2 - radians coord1.2) / 2) by ring,
        Real.sin_neg, Real.sin_neg]
    ring
  simp only [haversine_distance, h]

/-- C8: `calculate_bearing` always lands in the half-open interval
`[0, 360)`: the degree value is normalized by `(deg + 360) % 360`, and the
float `%` with positive divisor `360` has range `[0, 360)`. -/
theorem calculate_bearing_range (coord1 coord2 : ℝ × ℝ) :
    0 ≤ calculate_bearing coord1 coord2 ∧ calculate_bearing coord1 coord2 < 360 := by
  have key : ∀ a : ℝ, 0 ≤ pymod a 360 ∧ pymod a 360 < 360 := by
    intro a
    unfold pymod
    have h1 : (⌊a / 360⌋ : ℝ) ≤ a / 360 := Int.floor_le _
    have h2 : a / 360 < ⌊a / 360⌋ + 1 := Int.lt_floor_add_one _
    constructor
    · linarith
    · linarith
  simp only [calculate_bearing]
  exact key _

/-- Pairwise property of a flat-map: the blocks are internally pairwise,
and any element of an earlier block relates to any element of a later one. -/
theorem pairwise_flatMap_of {α β : Type} {R : β → β → Prop} {S : α → α → Prop}
    {l : List α} {f : α → List β} (hl : l.Pairwise S)
    (hf : ∀ a ∈ l, (f a).Pairwise R)
    (hcross : ∀ a b, S a b → ∀ p ∈ f a, ∀ q ∈ f b, R p q) :
    (l.flatMap f).Pairwise R := by
  induction l with
  | nil => simp
  | cons a t ih =>
    rw [List.flatMap_cons, List.pairwise_append]
    obtain ⟨ha, ht⟩ := List.pairwise_cons.1 hl
    refine ⟨hf a (by simp), ih ht (fun b hb => hf b (List.mem_cons_of_mem a hb)), ?_⟩
    intro p hp q hq
    obtain ⟨b, hb, hqb⟩ := List.mem_flatMap.1 hq
    exact hcross a b (ha b hb) p hp q hqb

/-- Sum of a function mapped over `List.range` as a `Finset.range` sum. -/
theorem sum_map_range (f : ℕ → ℕ) (n : ℕ) :
    ((List.range n).map f).sum = ∑ i in Finset.range n, f i := by
  induction n with
  | zero => simp
  | succ m ih => simp [List.range_succ, Finset.sum_range_succ, ih]

/-- The loop of `calculate_distances` enumerates exactly `n·(n-1)/2` pairs. -/
theorem lexPairs_length (n : ℕ) : (lexPairs n).length = n * (n - 1) / 2 := by
  rw [lexPairs, List.length_flatMap]
  have h1 : List.map (List.length ∘ fun i => (List.range' (i + 1) (n - (i + 1))).map
      fun j => (i, j)) (List.range n) = (List.range n).map fun i => n - (i + 1) := by
    simp [Function.comp]
  rw [h1, sum_map_range]
  have h2 : ∑ i in Finset.range n, (n - (i + 1)) = ∑ i in Finset.range n, i := by
    rw [← Finset.sum_range_reflect (fun i => i) n]
    exact Finset.sum_congr rfl fun i hi => by
      have := Finset.mem_range.1 hi
      omega
  have h3 := Finset.sum_range_id_mul_two n
  omega

/-- Membership in the pair enumeration: exactly the pairs `i < j < n`. -/
theorem lexPairs_mem {n i j : ℕ} : (i, j) ∈ lexPairs n ↔ i < j ∧ j < n := by
  simp only [lexPairs, List.mem_flatMap, List.mem_map, List.mem_range,
    List.mem_range'_1, Prod.mk.injEq]
  constructor
  · rintro ⟨a, ha, j', ⟨hj1, hj2⟩, rfl, rfl⟩
    omega
  · rintro ⟨hij, hjn⟩
    exact ⟨i, by omega, ⟨j, ⟨by omega, by omega⟩, rfl, rfl⟩⟩

/-- The pair enumeration is strictly increasing in lexicographic order. -/
theorem lexPairs_sorted (n : ℕ) : (lexPairs n).Pairwise lexLt := by
  refine pairwise_flatMap_of (S := (· < ·)) (List.pairwise_lt_range n) ?_ ?_
  · intro a _
    refine List.Pairwise.map _ ?_ (List.pairwise_lt_range' (a + 1) (n - (a + 1)))
    intro x y hxy
    exact Or.inr ⟨rfl, hxy⟩
  · intro a b hab p hp q hq
    obtain ⟨x, _, rfl⟩ := List.mem_map.1 hp
    obtain ⟨y, _, rfl⟩ := List.mem_map.1 hq
    exact Or.inl hab

/-- `calculate_distances` is the record builder mapped over the lexicographic
pair enumeration. -/
theorem calculate_distances_eq (data : List Point) :
    calculate_distances data =
      (lexPairs data.length).map fun p => distance_record data p.1 p.2 := by
  simp only [calculate_distances, lexPairs, List.map_flatMap, List.map_map]
  rfl

/-- C5: for a dataset of `n` points, `calculate_distances` returns exactly
`n·(n-1)/2` records, one per unordered pair `(i, j)` with `i < j`, in
lexicographic order of `(i, j)`, each record carrying the two points'
coordinates and their haversine distance. -/
theorem calculate_distances_complete (data : List Point) :
    ∃ pairs : List (ℕ × ℕ),
      calculate_distances data = pairs.map (fun p => distance_record data p.1 p.2) ∧
      (calculate_distances data).length = data.length * (data.length - 1) / 2 ∧
      pairs.Pairwise lexLt ∧
      (∀ i j : ℕ, (i, j) ∈ pairs ↔ i < j ∧ j < data.length) := by
  refine ⟨lexPairs data.length, calculate_distances_eq data, ?_, lexPairs_sorted _,
    fun i j => lexPairs_mem⟩
  rw [calculate_distances_eq data, List.length_map, lexPairs_length]

/-- A left fold of binary `min` is bounded by its initial accumulator. -/
theorem foldl_min_le_init (l : List ℝ) : ∀ init : ℝ, l.foldl min init ≤ init := by
  induction l with
  | nil => simp
  | cons a t ih =>
    intro init
    simp only [List.foldl_cons]
    exact le_trans (ih (min init a)) (min_le_left _ _)

/-- A left fold of binary `min` is bounded by every list element. -/
theorem foldl_min_le_of_mem (l : List ℝ) : ∀ init : ℝ, ∀ x ∈ l, l.foldl min init ≤ x := by
  induction l with
  | nil => simp
  | cons a t ih =>
    intro init x hx
    simp only [List.foldl_cons]
    rcases List.mem_cons.1 hx with rfl | hx'
    · exact le_trans (foldl_min_le_init t (min init x)) (min_le_right _ _)
    · exact ih (min init a) x hx'

/-- A left fold of binary `min` is the initial accumulator or a list element. -/
theorem foldl_min_mem (l : List ℝ) : ∀ init : ℝ, l.foldl min init = init ∨ l.foldl min init ∈ l := by
  induction l with
  | nil => intro init; left; rfl
  | cons a t ih =>
    intro init
    simp only [List.foldl_cons]
    rcases ih (min init a) with h | h
    · rcases min_choice init a with h2 | h2
      · left; rw [h, h2]
      · right; rw [h, h2]; exact List.mem_cons_self a t
    · right; exact List.mem_cons_of_mem a h

/-- A left fold of binary `max` dominates its initial accumulator. -/
theorem foldl_max_init_le (l : List ℝ) : ∀ init : ℝ, init ≤ l.foldl max init := by
  induction l with
  | nil => simp
  | cons a t ih =>
    intro init
    simp only [List.foldl_cons]
    exact le_trans (le_max_left _ _) (ih (max init a))

/-- A left fold of binary `max` dominates every list element. -/
theorem foldl_max_le_of_mem (l : List ℝ) : ∀ init : ℝ, ∀ x ∈ l, x ≤ l.foldl max init := by
  induction l with
  | nil => simp
  | cons a t ih =>
    intro init x hx
    simp only [List.foldl_cons]
    rcases List.mem_cons.1 hx with rfl | hx'
    · exact le_trans (le_max_right _ _) (foldl_max_init_le t (max init x))
    · exact ih (max init a) x hx'

/-- A left fold of binary `max` is the initial accumulator or a list element. -/
theorem foldl_max_mem (l : List ℝ) : ∀ init : ℝ, l.foldl max init = init ∨ l.foldl max init ∈ l := by
  induction l with
  | nil => intro init; left; rfl
  | cons a t ih =>
    intro init
    simp only [List.foldl_cons]
    rcases ih (max init a) with h | h
    · rcases max_choice init a with h2 | h2
      · left; rw [h, h2]
      · right; rw [h, h2]; exact List.mem_cons_self a t
    · right; exact List.mem_cons_of_mem a h

/-- On a non-empty dataset `summarize_data` succeeds and returns exactly the
values its straight-line code computes. -/
theorem summarize_data_cons (p : Point) (t : List Point) :
    summarize_data (p :: t) = .ok
      { total_points := (p :: t).length
        average_latitude := ((p :: t).map fun q => q.x).sum / ((p :: t).length : ℝ)
        average_longitude := ((p :: t).map fun q => q.y).sum / ((p :: t).length : ℝ)
        bounding_box :=
          { min_lat := (t.map fun q => q.x).foldl min p.x
            max_lat := (t.map fun q => q.x).foldl max p.x
            min_lon := (t.map fun q => q.y).foldl min p.y
            max_lon := (t.map fun q => q.y).foldl max p.y } } := by
  simp [summarize_data, pyDiv, pyMin, pyMax, Bind.bind, Except.bind, Pure.pure, Except.pure]

/-- C7: on every non-empty dataset `summarize_data` returns the point count,
the arithmetic means of latitudes and longitudes, and the elementwise
min/max bounding box; and on `[(25,-80), (27,-82)]` it returns count 2,
averages `(26, -81)` and box `(25, 27, -82, -80)`. -/
theorem summarize_data_correct (data : List Point) (h : data ≠ []) :
    (∃ s : Summary, summarize_data data = .ok s ∧
      s.total_points = data.length ∧
      s.average_latitude = (data.map fun q => q.x).sum / (data.length : ℝ) ∧
      s.average_longitude = (data.map fun q => q.y).sum / (data.length : ℝ) ∧
      (s.bounding_box.min_lat ∈ data.map fun q => q.x) ∧
      (∀ v ∈ data.map fun q => q.x, s.bounding_box.min_lat ≤ v) ∧
      (s.bounding_box.max_lat ∈ data.map fun q => q.x) ∧
      (∀ v ∈ data.map fun q => q.x, v ≤ s.bounding_box.max_lat) ∧
      (s.bounding_box.min_lon ∈ data.map fun q => q.y) ∧
      (∀ v ∈ data.map fun q => q.y, s.bounding_box.min_lon ≤ v) ∧
      (s.bounding_box.max_lon ∈ data.map fun q => q.y) ∧
      (∀ v ∈ data.map fun q => q.y, v ≤ s.bounding_box.max_lon)) ∧
    summarize_data [⟨25, -80⟩, ⟨27, -82⟩] = .ok
      { total_points := 2
        average_latitude := 26
        average_longitude := -81
        bounding_box := { min_lat := 25, max_lat := 27, min_lon := -82, max_lon := -80 } } := by
  constructor
  · obtain ⟨p, t, rfl⟩ := List.exists_cons_of_ne_nil h
    refine ⟨_, summarize_data_cons p t, rfl, rfl, rfl, ?_, ?_, ?_, ?_, ?_, ?_, ?_, ?_⟩
    · rcases foldl_min_mem (t.map fun q => q.x) p.x with he | he <;>
        simp [he, List.mem_cons]
    · intro v hv
      rcases List.mem_cons.1 hv with rfl | hv'
      · exact foldl_min_le_init _ _
      · exact foldl_min_le_of_mem _ _ _ hv'
    · rcases foldl_max_mem (t.map fun q => q.x) p.x with he | he <;>
        simp [he, List.mem_cons]
    · intro v hv
      rcases List.mem_cons.1 hv with rfl | hv'
      · exact foldl_max_init_le _ _
      · exact foldl_max_le_of_mem _ _ _ hv'
    · rcases foldl_min_mem (t.map fun q => q.y) p.y with he | he <;>
        simp [he, List.mem_cons]
    · intro v hv
      rcases List.mem_cons.1 hv with rfl | hv'
      · exact foldl_min_le_init _ _
      · exact foldl_min_le_of_mem _ _ _ hv'
    · rcases foldl_max_mem (t.map fun q => q.y) p.y with he | he <;>
        simp [he, List.mem_cons]
    · intro v hv
      rcases List.mem_cons.1 hv with rfl | hv'
      · exact foldl_max_init_le _ _
      · exact foldl_max_le_of_mem _ _ _ hv'
  · rw [show ([⟨25, -80⟩, ⟨27, -82⟩] : List Point) =
        (⟨25, -80⟩ : Point) :: [(⟨27, -82⟩ : Point)] from rfl, summarize_data_cons]
    norm_num [min_def, max_def]

/-- Witness for C7 at the spec's concrete two-point dataset. -/
theorem summarize_data_correct_witness :
    (([⟨25, -80⟩, ⟨27, -82⟩] : List Point) ≠ []) ∧
    summarize_data [⟨25, -80⟩, ⟨27, -82⟩] = .ok
      { total_points := 2
        average_latitude := 26
        average_longitude := -81
        bounding_box := { min_lat := 25, max_lat := 27, min_lon := -82, max_lon := -80 } } :=
  ⟨by simp, (summarize_data_correct [⟨25, -80⟩, ⟨27, -82⟩] (by simp)).2⟩

/-- C1 (code behavior at the failing input): `summarize_data` on the empty
dataset raises Python's `ZeroDivisionError` from the unguarded division
`sum(...) / total_points`, which is a numeric error, not the explicit
empty-input `EmptyDataset` error the design documentation requires. -/
theorem summarize_data_empty_is_zero_division :
    summarize_data ([] : List Point) = .error .zeroDivision ∧
    PyError.zeroDivision ≠ PyError.emptyDataset := by
  constructor
  · rfl
  · decide

/-- Full characterization of the inner scan: it returns the points of some
sublist `picked` of the scanned list, adds exactly the indices of `picked` to
the visited set, and every picked pair was unvisited and within `radius` of
the seed. -/
theorem cluster_scan_spec (radius : ℝ) (point : Point) (js : List (ℕ × Point)) :
    ∀ visited : Finset ℕ,
      ∃ picked : List (ℕ × Point),
        picked.Sublist js ∧
        (cluster_scan radius point js visited).1 = picked.map Prod.snd ∧
        (cluster_scan radius point js visited).2 =
          visited ∪ (picked.map Prod.fst).toFinset ∧
        (∀ jp ∈ picked, jp.1 ∉ visited) ∧
        (∀ jp ∈ picked, haversine_distance (toCoord point) (toCoord jp.2) ≤ radius) := by
  induction js with
  | nil =>
    intro visited
    refine ⟨[], ?_, ?_, ?_, ?_, ?_⟩ <;> simp [cluster_scan]
  | cons jp rest ih =>
    intro visited
    obtain ⟨j, other⟩ := jp
    by_cases hv : j ∈ visited
    · obtain ⟨picked, hsub, h1, h2, h3, h4⟩ := ih visited
      exact ⟨picked, hsub.cons _, by simp [cluster_scan, hv, h1],
        by simp [cluster_scan, hv, h2], h3, h4⟩
    · by_cases hd : haversine_distance (toCoord point) (toCoord other) ≤ radius
      · obtain ⟨picked, hsub, h1, h2, h3, h4⟩ := ih (insert j visited)
        refine ⟨(j, other) :: picked, hsub.cons₂ _, ?_, ?_, ?_, ?_⟩
        · simp [cluster_scan, hv, hd, h1]
        · simp only [cluster_scan, if_neg hv, if_pos hd, h2, List.map_cons,
            List.toFinset_cons, Finset.insert_union, Finset.union_insert]
        · intro q hq
          rcases List.mem_cons.1 hq with rfl | hq'
          · exact hv
          · exact fun hmem => h3 q hq' (Finset.mem_insert_of_mem hmem)
        · intro q hq
          rcases List.mem_cons.1 hq with rfl | hq'
          · exact hd
          · exact h4 q hq'
      · obtain ⟨picked, hsub, h1, h2, h3, h4⟩ := ih visited
        exact ⟨picked, hsub.cons _, by simp [cluster_scan, hv, hd, h1],
          by simp [cluster_scan, hv, hd, h2], h3, h4⟩

/-- The index components of the enumerated dataset are strictly increasing. -/
theorem enum_pairwise_fst_lt (data : List Point) :
    data.enum.Pairwise fun a b : ℕ × Point => a.1 < b.1 := by
  rw [← List.pairwise_map (f := Prod.fst), List.enum_map_fst]
  exact List.pairwise_lt_range _

/-- The enumerated dataset has no duplicate pairs. -/
theorem enum_nodup (data : List Point) : data.enum.Nodup := by
  apply List.Nodup.of_map Prod.fst
  rw [List.enum_map_fst]
  exact List.nodup_range _

/-- In the enumerated dataset the index determines the point. -/
theorem enum_fst_inj {data : List Point} {j : ℕ} {p q : Point}
    (hp : (j, p) ∈ data.enum) (hq : (j, q) ∈ data.enum) : p = q := by
  rw [List.mem_enum_iff_getElem?] at hp hq
  rw [hp] at hq
  simpa using Option.some_inj.1 hq

/-- Full characterization of the outer loop of `find_clusters`.  Provided the
worklist `l` is a sublist of the enumerated dataset covering every unvisited
pair, the loop output is the snd-projection of a list of index-point clusters
whose concatenation is a permutation of the unvisited pairs; clusters are
non-empty, internally strictly increasing in index, led by their seed (an
element of the worklist), and listed in increasing order of seed index. -/
theorem cluster_outer_spec (data : List Point) (radius : ℝ) (l : List (ℕ × Point)) :
    ∀ visited : Finset ℕ,
      l.Sublist data.enum →
      (∀ jp ∈ data.enum, jp.1 ∉ visited → jp ∈ l) →
      ∃ pcs : List (List (ℕ × Point)),
        cluster_outer data radius l visited = pcs.map (List.map Prod.snd) ∧
        pcs.flatten.Perm (data.enum.filter fun jp => jp.1 ∉ visited) ∧
        (∀ c ∈ pcs, c ≠ []) ∧
        (∀ c ∈ pcs, c.headI ∈ l) ∧
        (∀ c ∈ pcs, c.Pairwise fun a b : ℕ × Point => a.1 < b.1) ∧
        List.Chain' (fun c d : List (ℕ × Point) => c.headI.1 < d.headI.1) pcs := by
  induction l with
  | nil =>
    intro visited _ hcov
    have hf : (data.enum.filter fun jp => jp.1 ∉ visited) = [] := by
      apply List.filter_eq_nil_iff.mpr
      intro jp hjp
      simp only [decide_eq_true_eq, Decidable.not_not]
      by_contra hnv
      exact List.not_mem_nil jp (hcov jp hjp hnv)
    refine ⟨[], by simp [cluster_outer], ?_, by simp, by simp, by simp, by simp⟩
    rw [hf]
    simp
  | cons hd rest ih =>
    intro visited hsub hcov
    obtain ⟨i, point⟩ := hd
    have hrest_sub : rest.Sublist data.enum := (List.sublist_cons_self _ _).trans hsub
    have henum_pw := enum_pairwise_fst_lt data
    have hl_pw : (((i, point) :: rest).Pairwise fun a b : ℕ × Point => a.1 < b.1) :=
      List.Pairwise.sublist hsub henum_pw
    have hrest_gt : ∀ jp ∈ rest, i < jp.1 := fun jp h => (List.pairwise_cons.1 hl_pw).1 jp h
    by_cases hv : i ∈ visited
    · have hcov' : ∀ jp ∈ data.enum, jp.1 ∉ visited → jp ∈ rest := by
        intro jp hjp hnv
        rcases List.mem_cons.1 (hcov jp hjp hnv) with heq | h
        · exact absurd (heq ▸ hv) hnv
        · exact h
      obtain ⟨pcs, h1, h2, h3, h4, h5, h6⟩ := ih visited hrest_sub hcov'
      exact ⟨pcs, by simp [cluster_outer, hv, h1],
        h2, h3, fun c hc => List.mem_cons_of_mem _ (h4 c hc), h5, h6⟩
    · obtain ⟨picked, psub, ps1, ps2, ps3, ps4⟩ :=
        cluster_scan_spec radius point data.enum (insert i visited)
      have hpicked_enum : ∀ jp ∈ picked, jp ∈ data.enum := fun jp h => psub.subset h
      have hpicked_nodup : picked.Nodup := psub.nodup (enum_nodup data)
      have hienum : (i, point) ∈ data.enum := hsub.subset (List.mem_cons_self _ _)
      have hpicked_in_rest : ∀ jp ∈ picked, jp ∈ rest := by
        intro jp hjp
        have hnv : jp.1 ∉ visited :=
          fun hviz => ps3 jp hjp (Finset.mem_insert_of_mem hviz)
        rcases List.mem_cons.1 (hcov jp (hpicked_enum jp hjp) hnv) with heq | h
        · exact absurd (by rw [heq]; exact Finset.mem_insert_self _ _) (ps3 jp hjp)
        · exact h
      have hpicked_gt : ∀ jp ∈ picked, i < jp.1 :=
        fun jp h => hrest_gt jp (hpicked_in_rest jp h)
      have hcov2 : ∀ jp ∈ data.enum,
          jp.1 ∉ (cluster_scan radius point data.enum (insert i visited)).2 → jp ∈ rest := by
        intro jp hjp hnv
        have hnotv : jp.1 ∉ visited := fun h => hnv (by
          rw [ps2]; exact Finset.mem_union_left _ (Finset.mem_insert_of_mem h))
        rcases List.mem_cons.1 (hcov jp hjp hnotv) with heq | h
        · exact absurd (by
            rw [ps2, heq]; exact Finset.mem_union_left _ (Finset.mem_insert_self _ _)) hnv
        · exact h
      obtain ⟨pcs, h1, h2, h3, h4, h5, h6⟩ := ih _ hrest_sub hcov2
      have hperm : (((i, point) :: picked) ++
          (data.enum.filter fun jp =>
            jp.1 ∉ (cluster_scan radius point data.enum (insert i visited)).2)).Perm
          (data.enum.filter fun jp => jp.1 ∉ visited) := by
        classical
        have hfstv2 : ∀ jp ∈ picked,
            jp.1 ∈ (cluster_scan radius point data.enum (insert i visited)).2 := by
          intro jp hjp
          rw [ps2]
          exact Finset.mem_union_right _ (List.mem_toFinset.2 (List.mem_map_of_mem _ hjp))
        have hiv2 : i ∈ (cluster_scan radius point data.enum (insert i visited)).2 := by
          rw [ps2]
          exact Finset.mem_union_left _ (Finset.mem_insert_self _ _)
        apply List.perm_of_nodup_nodup_toFinset_eq
        · refine List.Nodup.cons ?_ (List.Nodup.append hpicked_nodup
            (List.Nodup.filter _ (enum_nodup data)) ?_)
          · intro hmem
            rcases List.mem_append.1 hmem with hmem1 | hmem2
            · exact ps3 _ hmem1 (Finset.mem_insert_self _ _)
            · have := (List.mem_filter.1 hmem2).2
              simp only [decide_eq_true_eq] at this
              exact this hiv2
          · intro a ha hafil
            have := (List.mem_filter.1 hafil).2
            simp only [decide_eq_true_eq] at this
            exact this (hfstv2 a ha)
        · exact List.Nodup.filter _ (enum_nodup data)
        · apply Finset.ext
          intro a
          simp only [List.mem_toFinset, List.mem_cons, List.mem_append,
            List.mem_filter, decide_eq_true_eq]
          constructor
          · rintro ((rfl | ha) | ⟨hae, hav2⟩)
            · exact ⟨hienum, hv⟩
            · exact ⟨hpicked_enum a ha,
                fun hviz => ps3 a ha (Finset.mem_insert_of_mem hviz)⟩
            · refine ⟨hae, fun hviz => hav2 ?_⟩
              rw [ps2]
              exact Finset.mem_union_left _ (Finset.mem_insert_of_mem hviz)
          · rintro ⟨hae, hanv⟩
            by_cases hav2 : a.1 ∈ (cluster_scan radius point data.enum (insert i visited)).2
            · rw [ps2] at hav2
              rcases Finset.mem_union.1 hav2 with hins | hpickedf
              · rcases Finset.mem_insert.1 hins with heqi | hviz
                · refine Or.inl (Or.inl ?_)
                  rcases List.mem_cons.1 (hcov a hae hanv) with heq | hmem
                  · exact heq
                  · exact absurd (heqi ▸ hrest_gt a hmem) (lt_irrefl _)
                · exact absurd hviz hanv
              · refine Or.inl (Or.inr ?_)
                obtain ⟨b, hb, hbfst⟩ := List.mem_map.1 (List.mem_toFinset.1 hpickedf)
                obtain ⟨a1, a2⟩ := a
                obtain ⟨b1, b2⟩ := b
                simp only at hbfst
                subst hbfst
                have : b2 = a2 := enum_fst_inj (hpicked_enum _ hb) hae
                subst this
                exact hb
            · exact Or.inr ⟨hae, hav2⟩
      refine ⟨((i, point) :: picked) :: pcs, ?_, ?_, ?_, ?_, ?_, ?_⟩
      · simp [cluster_outer, hv, ps1, h1]
      · rw [List.flatten_cons]
        exact ((h2.append_left ((i, point) :: picked)).trans hperm)
      · intro c hc
        rcases List.mem_cons.1 hc with rfl | hc'
        · simp
        · exact h3 c hc'
      · intro c hc
        rcases List.mem_cons.1 hc with rfl | hc'
        · exact List.mem_cons_self _ _
        · exact List.mem_cons_of_mem _ (h4 c hc')
      · intro c hc
        rcases List.mem_cons.1 hc with rfl | hc'
        · exact List.pairwise_cons.2 ⟨hpicked_gt, List.Pairwise.sublist psub henum_pw⟩
        · exact h5 c hc'
      · refine List.chain'_cons'.2 ⟨?_, h6⟩
        intro d hd
        have hdmem : d ∈ pcs := List.mem_of_mem_head? hd
        exact hrest_gt _ (h4 d hdmem)

/-- The haversine term vanishes on identical coordinates. -/
theorem hav_a_self (coord : ℝ × ℝ) : hav_a coord coord = 0 := by
  simp [hav_a]

/-- `atan2` of a nonnegative first argument is nonnegative (the complex
argument of a point in the closed upper half-plane). -/
theorem atan2_nonneg {y : ℝ} (x : ℝ) (hy : 0 ≤ y) : 0 ≤ atan2 y x := by
  unfold atan2
  exact Complex.arg_nonneg_iff.2 (by simpa using hy)

/-- The haversine distance between identical coordinates is zero. -/
theorem haversine_distance_self (coord : ℝ × ℝ) : haversine_distance coord coord = 0 := by
  simp only [haversine_distance, hav_a_self]
  rw [Real.sqrt_zero, sub_zero, Real.sqrt_one]
  have h1 : atan2 0 1 = 0 := by
    unfold atan2
    have h2 : (⟨1, 0⟩ : ℂ) = 1 := by
      apply Complex.ext <;> simp
    rw [h2, Complex.arg_one]
  rw [h1]
  ring

/-- The haversine distance is never negative. -/
theorem haversine_distance_nonneg (coord1 coord2 : ℝ × ℝ) :
    0 ≤ haversine_distance coord1 coord2 := by
  simp only [haversine_distance]
  have h := atan2_nonneg (Real.sqrt (1 - hav_a coord1 coord2))
    (Real.sqrt_nonneg (hav_a coord1 coord2))
  nlinarith

/-- Every point of every cluster built by the outer loop is within `radius`
of the cluster head, for any nonnegative `radius`. -/
theorem cluster_outer_within_radius (data : List Point) (radius : ℝ) (hr : 0 ≤ radius)
    (l : List (ℕ × Point)) :
    ∀ visited : Finset ℕ, ∀ c ∈ cluster_outer data radius l visited, ∀ p ∈ c,
      haversine_distance (toCoord c.headI) (toCoord p) ≤ radius := by
  induction l with
  | nil =>
    intro visited c hc
    simp [cluster_outer] at hc
  | cons hd rest ih =>
    intro visited c hc
    obtain ⟨i, point⟩ := hd
    by_cases hv : i ∈ visited
    · exact ih visited c (by simpa [cluster_outer, hv] using hc)
    · have hc' : c = point :: (cluster_scan radius point data.enum (insert i visited)).1 ∨
          c ∈ cluster_outer data radius rest
            (cluster_scan radius point data.enum (insert i visited)).2 := by
        simpa [cluster_outer, hv] using hc
      rcases hc' with rfl | hc2
      · intro p hp
        rcases List.mem_cons.1 hp with rfl | hp'
        · simp only [List.headI]
          rw [haversine_distance_self]
          exact hr
        · obtain ⟨picked, _, ps1, _, _, ps4⟩ :=
            cluster_scan_spec radius point data.enum (insert i visited)
          rw [ps1] at hp'
          obtain ⟨jp, hjp, rfl⟩ := List.mem_map.1 hp'
          simp only [List.headI]
          exact ps4 jp hjp
      · exact ih _ c hc2

/-- C2: for every dataset and every radius ≥ 0, every point placed in a
cluster by `find_clusters` has haversine distance at most `radius` to the
cluster's seed (the cluster's first element) — membership is decided only by
distance to the seed. -/
theorem find_clusters_within_radius (data : List Point) (radius : ℝ) (hr : 0 ≤ radius) :
    ∀ c ∈ find_clusters data radius, ∀ p ∈ c,
      haversine_distance (toCoord c.headI) (toCoord p) ≤ radius :=
  fun c hc => cluster_outer_within_radius data radius hr data.enum ∅ c hc

/-- Witness for C2 on the singleton dataset at radius `0`. -/
theorem find_clusters_within_radius_witness :
    (0 : ℝ) ≤ 0 ∧ ∀ c ∈ find_clusters [(⟨0, 0⟩ : Point)] 0, ∀ p ∈ c,
      haversine_distance (toCoord c.headI) (toCoord p) ≤ 0 :=
  ⟨le_refl 0, find_clusters_within_radius [(⟨0, 0⟩ : Point)] 0 (le_refl 0)⟩

/-- C3: for every dataset and every radius ≥ 0, the clusters returned by
`find_clusters` are non-empty and their concatenation is a permutation of
the input dataset — a partition with no duplicates and no omissions. -/
theorem find_clusters_partition (data : List Point) (radius : ℝ) (hr : 0 ≤ radius) :
    (∀ c ∈ find_clusters data radius, c ≠ []) ∧
    (find_clusters data radius).flatten.Perm data := by
  obtain ⟨pcs, h1, h2, h3, _, _, _⟩ := cluster_outer_spec data radius data.enum ∅
    (List.Sublist.refl _) (fun jp hjp _ => hjp)
  constructor
  · intro c hc
    rw [find_clusters, h1] at hc
    obtain ⟨pc, hpc, rfl⟩ := List.mem_map.1 hc
    simpa using h3 pc hpc
  · have hfe : (data.enum.filter fun jp => jp.1 ∉ (∅ : Finset ℕ)) = data.enum := by
      apply List.filter_eq_self.mpr
      intro a _
      simp
    have h2' := h2.map Prod.snd
    rw [hfe, List.enum_map_snd] at h2'
    rw [find_clusters, h1, ← List.map_flatten]
    exact h2'

/-- Witness for C3 on the singleton dataset at radius `0`. -/
theorem find_clusters_partition_witness :
    (0 : ℝ) ≤ 0 ∧ ((∀ c ∈ find_clusters [(⟨0, 0⟩ : Point)] 0, c ≠ []) ∧
      (find_clusters [(⟨0, 0⟩ : Point)] 0).flatten.Perm [(⟨0, 0⟩ : Point)]) :=
  ⟨le_refl 0, find_clusters_partition [(⟨0, 0⟩ : Point)] 0 (le_refl 0)⟩

/-- C9: the output of `find_clusters` is the snd-projection of index-point
clusters drawn from the enumerated dataset: each cluster starts with its
seed and continues in strictly increasing dataset-index order, and the
clusters follow each other in strictly increasing seed-index order. -/
theorem find_clusters_index_order (data : List Point) (radius : ℝ) :
    ∃ pcs : List (List (ℕ × Point)),
      find_clusters data radius = pcs.map (List.map Prod.snd) ∧
      (∀ c ∈ pcs, c ≠ []) ∧
      (∀ c ∈ pcs, ∀ jp ∈ c, jp ∈ data.enum) ∧
      (∀ c ∈ pcs, c.Chain' fun a b : ℕ × Point => a.1 < b.1) ∧
      List.Chain' (fun c d : List (ℕ × Point) => c.headI.1 < d.headI.1) pcs := by
  obtain ⟨pcs, h1, h2, h3, _, h5, h6⟩ := cluster_outer_spec data radius data.enum ∅
    (List.Sublist.refl _) (fun jp hjp _ => hjp)
  refine ⟨pcs, h1, h3, ?_, fun c hc => (h5 c hc).chain', h6⟩
  intro c hc jp hjp
  have hmem : jp ∈ pcs.flatten := List.mem_flatten.2 ⟨c, hc, hjp⟩
  have h := h2.mem_iff.1 hmem
  exact (List.mem_filter.1 h).1

/-- With a negative radius the inner scan never collects anything: every
haversine distance is nonnegative, hence never ≤ radius. -/
theorem cluster_scan_neg (radius : ℝ) (hr : radius < 0) (point : Point)
    (js : List (ℕ × Point)) :
    ∀ visited : Finset ℕ, cluster_scan radius point js visited = ([], visited) := by
  induction js with
  | nil =>
    intro visited
    simp [cluster_scan]
  | cons jp rest ih =>
    intro visited
    obtain ⟨j, other⟩ := jp
    have hd : ¬ haversine_distance (toCoord point) (toCoord other) ≤ radius :=
      fun h => absurd (lt_of_le_of_lt h hr) (not_lt.2 (haversine_distance_nonneg _ _))
    by_cases hv : j ∈ visited <;> simp [cluster_scan, hv, hd, ih]

/-- With a negative radius the outer loop emits one singleton cluster per
unvisited worklist entry, in order. -/
theorem cluster_outer_neg (data : List Point) (radius : ℝ) (hr : radius < 0)
    (l : List (ℕ × Point)) :
    (l.map Prod.fst).Nodup →
      ∀ visited : Finset ℕ,
        cluster_outer data radius l visited =
          (l.filter fun jp => jp.1 ∉ visited).map fun jp => [jp.2] := by
  induction l with
  | nil =>
    intro _ visited
    simp [cluster_outer]
  | cons hd rest ih =>
    intro hnd visited
    obtain ⟨i, point⟩ := hd
    have hnd' : (rest.map Prod.fst).Nodup := (List.nodup_cons.1 hnd).2
    have hni : i ∉ rest.map Prod.fst := (List.nodup_cons.1 hnd).1
    by_cases hv : i ∈ visited
    · simp [cluster_outer, hv, ih hnd' visited]
    · simp only [cluster_outer, if_neg hv, cluster_scan_neg radius hr point]
      rw [ih hnd' (insert i visited)]
      have hfil : (rest.filter fun jp => jp.1 ∉ insert i visited) =
          (rest.filter fun jp => jp.1 ∉ visited) := by
        apply List.filter_congr
        intro jp hjp
        have hne : jp.1 ≠ i := fun h => hni (h ▸ List.mem_map_of_mem Prod.fst hjp)
        simp [Finset.mem_insert, hne]
      rw [hfil]
      simp [hv]

/-- C10: for any radius < 0, `find_clusters` still returns a result: one
singleton cluster per point, in dataset order, because every computed
distance is nonnegative and therefore never ≤ radius. -/
theorem find_clusters_neg_radius (data : List Point) (radius : ℝ) (hr : radius < 0) :
    find_clusters data radius = data.map fun p => [p] := by
  rw [find_clusters, cluster_outer_neg data radius hr data.enum
    (by rw [List.enum_map_fst]; exact List.nodup_range _) ∅]
  have hfe : (data.enum.filter fun jp => jp.1 ∉ (∅ : Finset ℕ)) = data.enum := by
    apply List.filter_eq_self.mpr
    intro a _
    simp
  rw [hfe]
  conv_rhs => rw [← List.enum_map_snd data]
  rw [List.map_map]
  rfl

/-- Witness for C10 on a singleton dataset at radius `-1`. -/
theorem find_clusters_neg_radius_witness :
    (-1 : ℝ) < 0 ∧ find_clusters [(⟨0, 0⟩ : Point)] (-1) = [[(⟨0, 0⟩ : Point)]] :=
  ⟨by norm_num, by
    have h := find_clusters_neg_radius [(⟨0, 0⟩ : Point)] (-1) (by norm_num)
    simpa using h⟩
